import Mathlib

/-!
Verification of the `parse_loc_tags` post-processor of silicon-PaddleOCR.

The function lives (twice, with identical bodies) in
`skills/silicon-paddle-ocr/scripts/ocr_skill.py` and `test/ocr_test.py`.
It receives the raw model response and the image's pixel dimensions and
returns a list of `{text, box}` records.

The embedding below mirrors the Python source:

* `scanPairs` implements `re.findall(r'([^\|<]+?)((?:<\|LOC_\d+\|\>)+)', content)`.
  For this pattern the leftmost-match/lazy-group semantics of the Python
  regex engine reduce to: a captured pair is a maximal nonempty run of
  characters other than `|` and `<`, immediately followed by a maximal
  nonempty run of well-formed `<|LOC_<digits>|>` tokens; scanning resumes
  after the token run, and positions that cannot start such a match are
  skipped one character at a time.  (Group 1 is lazy, but it can only end
  where a token begins, i.e. at the first `<` after its start, so the
  captured text is exactly the plain run.)
* `findLocDigitRuns` implements `re.findall(r'LOC_(\d+)', loc_tags)` and
  `digitsToNat` the subsequent `int(...)` conversion.  `\d` is modelled as
  the ASCII digits (the inputs it is applied to here are the matched token
  runs, whose digits the outer regex already constrained), and `str.strip`
  (`pyStrip`) is modelled on the ASCII whitespace characters.
* Python's float arithmetic is modelled exactly: a `float` is a rational
  that is a value of a binary64 number, `fpRound` is IEEE-754
  round-to-nearest, ties-to-even at 53 bits of precision with subnormals
  and an overflow threshold of `2^1024 - 2^970`.  The sites where CPython
  raises `OverflowError` (int/int true division whose result overflows,
  int-to-float conversion of an integer ≥ the threshold, and `int(...)`
  applied to an infinite product) are modelled by `none`; `int(float)`
  truncates toward zero (`ratTrunc`).
-/

/-- Fuel-driven helper for `natLog2`: halve until the value drops below 2,
counting the steps.  The fuel only forces structural recursion, so that the
function reduces inside `decide`; the wrapper supplies enough of it. -/
def log2Aux : ℕ → ℕ → ℕ
  | 0, _ => 0
  | fuel+1, n => if 2 ≤ n then log2Aux fuel (n / 2) + 1 else 0

/-- Base-2 logarithm (floor) of a positive natural, used to locate the
binade of a rational. -/
def natLog2 (n : ℕ) : ℕ := log2Aux n n

/-- Round a rational to the nearest integer, ties to even (the IEEE-754
default rounding used by CPython's float operations). -/
def rne (x : ℚ) : ℤ :=
  if x - (Rat.floor x : ℚ) < 1/2 then Rat.floor x
  else if 1/2 < x - (Rat.floor x : ℚ) then Rat.floor x + 1
  else if Rat.floor x % 2 = 0 then Rat.floor x else Rat.floor x + 1

/-- The exponent `e` with `2^e ≤ |q| < 2^(e+1)` of a nonzero rational,
computed from the bit lengths of numerator and denominator. -/
def ratExp (a : ℚ) : ℤ :=
  let e0 : ℤ := (natLog2 a.num.natAbs : ℤ) - (natLog2 a.den : ℤ)
  if a < 2 ^ e0 then e0 - 1 else e0

/-- `2^1024 - 2^970`: the smallest positive rational that binary64
round-to-nearest-even rounds to infinity. -/
def fpT : ℚ := 179769313486231580793728971405303415079934132710037826936173778980444968292764750946649017977587207096330286416692887910946555547851940402630657488671505820681908902000708383676273854845817711531764475730270069855571366959622842914819860834936475292719074168444365510704342711559699508093042880177904174497792

/-- The rounding granularity (unit in the last place) of binary64 at
magnitude `a`: `2^(e-52)` for normal magnitudes, `2^-1074` below the normal
range. -/
def fpGrid (a : ℚ) : ℚ := 2 ^ (max (ratExp a - 52) (-1074))

/-- Correctly rounded conversion of an exact rational to a binary64 value
(round to nearest, ties to even, subnormals at granularity `2^-1074`);
`none` models overflow to infinity. -/
def fpRound (q : ℚ) : Option ℚ :=
  if q = 0 then some 0
  else if fpT ≤ |q| then none
  else if q < 0 then some (-((rne (|q| / fpGrid |q|) : ℚ) * fpGrid |q|))
  else some ((rne (|q| / fpGrid |q|) : ℚ) * fpGrid |q|)

/-- Python `int(...)` on a finite float value: truncation toward zero. -/
def ratTrunc (q : ℚ) : ℤ := Int.tdiv q.num (q.den : ℤ)

/-- A Python number as it occurs for the scale factors of `parse_loc_tags`:
the `else 1` branch produces the int `1`, the division branch a float. -/
inductive PyNum where
  | pint : ℤ → PyNum
  | pfloat : ℚ → PyNum
  deriving DecidableEq, Repr

/-- `img_dim / max_loc if max_loc > 0 else 1` (source lines 71-72): an
int/int true division, correctly rounded to binary64; CPython raises
`OverflowError` (modelled `none`) when the quotient overflows. -/
def pyScale (dim : ℤ) (maxLoc : ℕ) : Option PyNum :=
  if 0 < maxLoc then (fpRound ((dim : ℚ) / (maxLoc : ℚ))).map PyNum.pfloat
  else some (PyNum.pint 1)

/-- `int(coords[i] * scale)` (source lines 90-98).  With an int scale the
product stays an exact integer.  With a float scale, CPython first converts
the int coordinate to binary64 (raising `OverflowError`, modelled `none`,
if it is too large), multiplies in binary64, and `int(...)` of an infinite
product raises as well (also `none`); otherwise the finite product is
truncated toward zero. -/
def scaleCoord (c : ℕ) : PyNum → Option ℤ
  | PyNum.pint n => some ((c : ℤ) * n)
  | PyNum.pfloat s => do
      let cf ← fpRound (c : ℚ)
      let p ← fpRound (cf * s)
      some (ratTrunc p)

/-- Characters admissible in the text chunk of a captured pair: the
regex class `[^\|<]`. -/
def plainChar (c : Char) : Bool := c != '|' && c != '<'

/-- One marker token `<|LOC_<digits>|>` at the head of the input: returns
the token's characters and the remaining input.  `\d+` is greedy, and a
failed tail cannot be rescued by giving digits back (the character after a
shorter digit run is still a digit, never `|`), so maximal-munch is exact. -/
def parseTokenC : List Char → Option (List Char × List Char)
  | '<' :: '|' :: 'L' :: 'O' :: 'C' :: '_' :: rest =>
      match rest.dropWhile Char.isDigit with
      | '|' :: '>' :: r2 =>
          if (rest.takeWhile Char.isDigit).isEmpty then none
          else some ('<' :: '|' :: 'L' :: 'O' :: 'C' :: '_' ::
              (rest.takeWhile Char.isDigit ++ ['|', '>']), r2)
      | _ => none
  | _ => none

/-- Fuel-driven body of `parseTokenRun`; the fuel only forces structural
recursion (so that the function reduces inside `decide`), the wrapper
always supplies enough of it. -/
def parseTokenRunF : ℕ → List Char → Option (List Char × List Char)
  | 0, _ => none
  | fuel+1, l =>
      match parseTokenC l with
      | none => none
      | some (tk, rest) =>
          match parseTokenRunF fuel rest with
          | some (tks, rest2) => some (tk ++ tks, rest2)
          | none => some (tk, rest)

/-- The maximal run of one-or-more consecutive marker tokens at the head of
the input, i.e. the greedy `(?:<\|LOC_\d+\|\>)+`: returns the concatenated
token characters (regex group 2) and the remaining input. -/
def parseTokenRun (l : List Char) : Option (List Char × List Char) :=
  parseTokenRunF (l.length + 1) l

/-- Fuel-driven body of `scanPairs`. -/
def scanPairsF : ℕ → List Char → List (List Char × List Char)
  | 0, _ => []
  | _+1, [] => []
  | fuel+1, c :: cs =>
      if plainChar c then
        match parseTokenRun (cs.dropWhile plainChar) with
        | some (tks, rest2) => (c :: cs.takeWhile plainChar, tks) :: scanPairsF fuel rest2
        | none => scanPairsF fuel (cs.dropWhile plainChar)
      else scanPairsF fuel cs

/-- The scanner for `re.findall(r'([^\|<]+?)((?:<\|LOC_\d+\|\>)+)', content)`
(source line 60): leftmost matches; a match is a maximal nonempty run of
characters in `[^\|<]` (group 1) followed by a maximal run of one-or-more
marker tokens (group 2); scanning resumes after each match, and a position
that cannot start a match is skipped.  Lazy group 1 can only end at the
first `<` after its start (its characters exclude `<`, and a token starts
with `<`), so the captured text is exactly the plain run. -/
def scanPairs (l : List Char) : List (List Char × List Char) :=
  scanPairsF l.length l

/-- Fuel-driven body of `findLocDigitRuns`. -/
def findLocDigitRunsF : ℕ → List Char → List (List Char)
  | 0, _ => []
  | _+1, [] => []
  | fuel+1, 'L' :: 'O' :: 'C' :: '_' :: rest =>
      if (rest.takeWhile Char.isDigit).isEmpty then
        findLocDigitRunsF fuel ('O' :: 'C' :: '_' :: rest)
      else
        rest.takeWhile Char.isDigit :: findLocDigitRunsF fuel (rest.dropWhile Char.isDigit)
  | fuel+1, _ :: cs => findLocDigitRunsF fuel cs

/-- The scanner for `re.findall(r'LOC_(\d+)', loc_tags)` (source lines 65
and 82): finds every occurrence of the literal `LOC_` followed by a maximal
nonempty digit run, returns the digit runs in order, and advances one
character past match failures. -/
def findLocDigitRuns (l : List Char) : List (List Char) :=
  findLocDigitRunsF l.length l

/-- Python `int(...)` on a string of decimal digits (arbitrary precision,
never fails on a nonempty digit run). -/
def digitsToNat (ds : List Char) : ℕ :=
  ds.foldl (fun a c => 10 * a + (c.toNat - '0'.toNat)) 0

/-- The whitespace set of Python's `str.strip()` (ASCII fragment). -/
def isPySpace (c : Char) : Bool :=
  c == ' ' || c == '\t' || c == '\n' || c == '\r' || c == '\x0B' || c == '\x0C'

/-- Python `str.strip()`: drop leading and trailing whitespace. -/
def pyStrip (l : List Char) : List Char :=
  ((l.dropWhile isPySpace).reverse.dropWhile isPySpace).reverse

/-- All LOC values of a response, in document order, flattened over the
captured pairs (source lines 63-66: the `all_loc_values` extend loop). -/
def allLocValues (prs : List (List Char × List Char)) : List ℕ :=
  prs.flatMap (fun p => (findLocDigitRuns p.2).map digitsToNat)

/-- `max(all_loc_values) if all_loc_values else 972` (source line 68);
Python's `max` folds binary `max` from the first element. -/
def maxLocOf : List ℕ → ℕ
  | [] => 972
  | v :: vs => vs.foldl Nat.max v

/-- One output record: the Python dict `{"text": ..., "box": ...}` with a
box of `[x, y]` pixel pairs. -/
structure TextRecord where
  text : String
  box : List (ℤ × ℤ)
  deriving DecidableEq, Repr

/-- Box construction from a group's coordinate list (source lines 86-107):
with at least 8 values the first 8 become four scaled points; with 4 to 7
the first 4 become a bounding box expanded to its four corners; otherwise
the all-zero degenerate box. -/
def buildBox (coords : List ℕ) (sx sy : PyNum) : Option (List (ℤ × ℤ)) :=
  match coords with
  | c0 :: c1 :: c2 :: c3 :: c4 :: c5 :: c6 :: c7 :: _ => do
      let x1 ← scaleCoord c0 sx
      let y1 ← scaleCoord c1 sy
      let x2 ← scaleCoord c2 sx
      let y2 ← scaleCoord c3 sy
      let x3 ← scaleCoord c4 sx
      let y3 ← scaleCoord c5 sy
      let x4 ← scaleCoord c6 sx
      let y4 ← scaleCoord c7 sy
      some [(x1, y1), (x2, y2), (x3, y3), (x4, y4)]
  | c0 :: c1 :: c2 :: c3 :: _ => do
      let x1 ← scaleCoord c0 sx
      let y1 ← scaleCoord c1 sy
      let x2 ← scaleCoord c2 sx
      let y2 ← scaleCoord c3 sy
      some [(x1, y1), (x2, y1), (x2, y2), (x1, y2)]
  | _ => some [(0, 0), (0, 0), (0, 0), (0, 0)]

/-- The record-building loop (source lines 76-112): skip pairs whose text
strips to empty, otherwise re-extract the group's values, build the box and
emit the record; an exception anywhere aborts the whole call (`none`). -/
def emitRecords : List (List Char × List Char) → PyNum → PyNum → Option (List TextRecord)
  | [], _, _ => some []
  | (chunk, run) :: rest, sx, sy =>
      if (pyStrip chunk).isEmpty then emitRecords rest sx sy
      else do
        let box ← buildBox ((findLocDigitRuns run).map digitsToNat) sx sy
        let more ← emitRecords rest sx sy
        some (⟨(pyStrip chunk).asString, box⟩ :: more)

namespace OcrSkill

/-- `parse_loc_tags` of `skills/silicon-paddle-ocr/scripts/ocr_skill.py`
(lines 49-114): scan the response into (text, marker-run) pairs, find the
global maximum LOC value (972 if none), derive the two scale factors, and
build one record per pair with nonempty stripped text.  `none` models the
propagation of a CPython `OverflowError` from the float arithmetic. -/
def parse_loc_tags (content : String) (image_size : ℤ × ℤ) : Option (List TextRecord) :=
  let prs := scanPairs content.data
  let maxLoc := maxLocOf (allLocValues prs)
  do
    let sx ← pyScale image_size.1 maxLoc
    let sy ← pyScale image_size.2 maxLoc
    emitRecords prs sx sy

end OcrSkill

namespace OcrTest

/-- `parse_loc_tags` of `test/ocr_test.py` (lines 60-125); the body is
character-for-character the same as the one in `ocr_skill.py`. -/
def parse_loc_tags (content : String) (image_size : ℤ × ℤ) : Option (List TextRecord) :=
  let prs := scanPairs content.data
  let maxLoc := maxLocOf (allLocValues prs)
  do
    let sx ← pyScale image_size.1 maxLoc
    let sy ← pyScale image_size.2 maxLoc
    emitRecords prs sx sy

end OcrTest

/-- Fuel-driven body of `specTokenValues`. -/
def specTokenValuesF : ℕ → List Char → List ℕ
  | 0, _ => []
  | _+1, [] => []
  | fuel+1, c :: cs =>
      match parseTokenC (c :: cs) with
      | some (tk, rest) => (findLocDigitRuns tk).map digitsToNat ++ specTokenValuesF fuel rest
      | none => specTokenValuesF fuel cs

/-- Modelled from the spec (the input grammar of section 4.1 and the
glossary): the numeric values of every marker token occurring anywhere in
the stream, in document order — the union of all marker groups, including
groups that the code's regex never captures.  This is the claim-side
reading of "all marker values across all groups in this response". -/
def specTokenValues (l : List Char) : List ℕ := specTokenValuesF l.length l

/-- Whether a marker token occurs anywhere in the stream (claim side). -/
def hasLocToken (l : List Char) : Bool :=
  l.tails.any fun s => (parseTokenC s).isSome

/-- The spec's scaling rule (claim side): `floor(raw * dim / m)` computed
exactly. -/
def specPixel (raw : ℕ) (dim : ℤ) (m : ℕ) : ℤ :=
  Int.fdiv ((raw : ℤ) * dim) (m : ℤ)

/-- Input of the C1 counterexample and witness. -/
def c1content : String := "a<|LOC_5|><|LOC_5|><|LOC_5|><|LOC_5|>"

/-- Input of the C2 counterexample and witness: the leading marker group is
preceded by no plain text, so the code's regex does not capture it. -/
def c2content : String := "<|LOC_999|>a<|LOC_2|><|LOC_2|><|LOC_2|><|LOC_2|>"

/-- Input of the C3 counterexample and witness: the text before the marker
group contains a stray `<`. -/
def c3content : String := "a<b<|LOC_1|>"

/-- The concrete scenario of C4. -/
def c4content : String := "Hello<|LOC_100|><|LOC_100|><|LOC_200|><|LOC_200|>World<|LOC_972|><|LOC_0|><|LOC_972|><|LOC_100|>"

/-- Input of the C5 counterexample: eight markers of value 49 under image
size (1, 1), so the float scale is fl(1/49) and 49 * fl(1/49) rounds to
just below 1. -/
def c5content : String := "x<|LOC_49|><|LOC_49|><|LOC_49|><|LOC_49|><|LOC_49|><|LOC_49|><|LOC_49|><|LOC_49|>"

/-- Input of the C8 counterexample: a response without marker tokens. -/
def c8content : String := "abc"

/-- An image width of 10^400 pixels: `width / 972` overflows binary64, so
CPython raises `OverflowError` while computing the scale factor. -/
def c8bigW : ℤ := 10000000000000000000000000000000000000000000000000000000000000000000000000000000000000000000000000000000000000000000000000000000000000000000000000000000000000000000000000000000000000000000000000000000000000000000000000000000000000000000000000000000000000000000000000000000000000000000000000000000000000000000000000000000000000000000000000000000000000000000000000000000000000000000000000000000000000000

/-- Input of the C9 counterexample: a marker value of 10^309, which cannot
be converted to a binary64 float (CPython raises `OverflowError` inside
`int(coords[0] * x_scale)`). -/
def c9content : String := "a<|LOC_1000000000000000000000000000000000000000000000000000000000000000000000000000000000000000000000000000000000000000000000000000000000000000000000000000000000000000000000000000000000000000000000000000000000000000000000000000000000000000000000000000000000000000000000000000000000000000000000000000000000000000000000|><|LOC_0|><|LOC_0|><|LOC_0|>"

/-- A small well-behaved input for the C9 witness. -/
def c9small : String := "b<|LOC_7|><|LOC_7|><|LOC_7|><|LOC_7|>"

theorem parseTokenC_length {l tk r2} (h : parseTokenC l = some (tk, r2)) :
    r2.length < l.length := by
  unfold parseTokenC at h
  split at h
  case _ rest =>
    split at h
    case _ r3 heq =>
      split at h
      · exact absurd h (by simp)
      · have hs := (List.dropWhile_sublist (p := Char.isDigit) (l := rest)).length_le
        rw [heq] at hs
        simp only [List.length_cons] at hs
        simp only [Option.some.injEq, Prod.mk.injEq] at h
        obtain ⟨-, h4⟩ := h
        subst h4
        simp only [List.length_cons]
        omega
    · exact absurd h (by simp)
  · exact absurd h (by simp)

theorem parseTokenRunF_congr : ∀ {f g : ℕ} {l : List Char}, l.length < f → l.length < g →
    parseTokenRunF f l = parseTokenRunF g l
  | f+1, g+1, l, _, _ => by
      simp only [parseTokenRunF]
      split
      · rfl
      case _ tk rest hc =>
        have hlen := parseTokenC_length hc
        rw [parseTokenRunF_congr (f := f) (g := g) (by omega) (by omega)]

theorem parseTokenRunF_eq : ∀ {f : ℕ} {l : List Char}, l.length < f →
    parseTokenRunF f l =
      (match parseTokenC l with
      | none => none
      | some (tk, rest) =>
          match parseTokenRun rest with
          | some (tks, rest2) => some (tk ++ tks, rest2)
          | none => some (tk, rest))
  | f+1, l, _ => by
      simp only [parseTokenRunF]
      split
      · rfl
      case _ tk rest hc =>
        have hlen := parseTokenC_length hc
        rw [parseTokenRunF_congr (f := f) (g := rest.length + 1) (by omega) (by omega)]
        rfl

theorem parseTokenRun_eq (l : List Char) :
    parseTokenRun l =
      match parseTokenC l with
      | none => none
      | some (tk, rest) =>
          match parseTokenRun rest with
          | some (tks, rest2) => some (tk ++ tks, rest2)
          | none => some (tk, rest) :=
  parseTokenRunF_eq (Nat.lt_succ_self _)

theorem parseTokenRun_length {l tks r2} (h : parseTokenRun l = some (tks, r2)) :
    r2.length < l.length := by
  rw [parseTokenRun_eq] at h
  split at h
  · exact absurd h (by simp)
  case _ tk rest hc =>
    have h1 := parseTokenC_length hc
    split at h
    case _ tks2 rest2 hrun =>
      have h2 := parseTokenRun_length hrun
      simp only [Option.some.injEq, Prod.mk.injEq] at h
      obtain ⟨-, h4⟩ := h
      subst h4
      omega
    · simp only [Option.some.injEq, Prod.mk.injEq] at h
      obtain ⟨-, h4⟩ := h
      subst h4
      omega
termination_by l.length
decreasing_by exact parseTokenC_length (by assumption)

theorem scanPairsF_congr : ∀ {f g : ℕ} {l : List Char}, l.length ≤ f → l.length ≤ g →
    scanPairsF f l = scanPairsF g l
  | 0, 0, _, _, _ => rfl
  | 0, _+1, [], _, _ => rfl
  | _+1, 0, [], _, _ => rfl
  | _+1, _+1, [], _, _ => rfl
  | f+1, g+1, c :: cs, hf, hg => by
      simp only [List.length_cons] at hf hg
      simp only [scanPairsF]
      have hdw := (List.dropWhile_sublist (p := plainChar) (l := cs)).length_le
      split
      · split
        case _ tks rest2 hrun =>
          have h1 := parseTokenRun_length hrun
          rw [scanPairsF_congr (f := f) (g := g) (by omega) (by omega)]
        · rw [scanPairsF_congr (f := f) (g := g) (by omega) (by omega)]
      · rw [scanPairsF_congr (f := f) (g := g) (by omega) (by omega)]

theorem scanPairs_nil : scanPairs [] = [] := rfl

theorem scanPairs_cons (c : Char) (cs : List Char) :
    scanPairs (c :: cs) =
      (if plainChar c then
        match parseTokenRun (cs.dropWhile plainChar) with
        | some (tks, rest2) => (c :: cs.takeWhile plainChar, tks) :: scanPairs rest2
        | none => scanPairs (cs.dropWhile plainChar)
      else scanPairs cs) := by
  unfold scanPairs
  simp only [List.length_cons, scanPairsF]
  have hdw := (List.dropWhile_sublist (p := plainChar) (l := cs)).length_le
  split
  · split
    case _ tks rest2 hrun =>
      have h1 := parseTokenRun_length hrun
      rw [scanPairsF_congr (f := cs.length) (g := rest2.length) (by omega) (by omega)]
    · rw [scanPairsF_congr (f := cs.length) (g := (cs.dropWhile plainChar).length) (by omega) (by omega)]
  · rfl

theorem le_foldl_self : ∀ (vs : List ℕ) (v : ℕ), v ≤ vs.foldl Nat.max v
  | [], _ => le_refl _
  | w :: ws, v => by
      simp only [List.foldl_cons]
      exact le_trans (Nat.le_max_left v w) (le_foldl_self ws _)

theorem foldl_max_mem : ∀ (vs : List ℕ) (v : ℕ), vs.foldl Nat.max v ∈ v :: vs
  | [], v => by simp
  | w :: ws, v => by
      simp only [List.foldl_cons]
      have h := foldl_max_mem ws (Nat.max v w)
      rcases List.mem_cons.mp h with h1 | h1
      · have h2 : v.max w = v ∨ v.max w = w := by
          by_cases hle : v ≤ w
          · exact Or.inr (Nat.max_eq_right hle)
          · exact Or.inl (Nat.max_eq_left (Nat.le_of_not_le hle))
        rcases h2 with h2 | h2 <;> rw [h1, h2] <;> simp
      · simp only [List.mem_cons]
        right
        right
        exact h1

theorem le_foldl_max : ∀ (vs : List ℕ) (v x : ℕ), x ∈ v :: vs → x ≤ vs.foldl Nat.max v
  | [], v, x, hx => by
      simp only [List.mem_singleton] at hx
      simp [hx]
  | w :: ws, v, x, hx => by
      simp only [List.foldl_cons]
      rcases List.mem_cons.mp hx with h1 | h1
      · subst h1
        exact le_trans (Nat.le_max_left x w) (le_foldl_self ws _)
      · rcases List.mem_cons.mp h1 with h2 | h2
        · subst h2
          exact le_trans (Nat.le_max_right v x) (le_foldl_self ws _)
        · exact le_foldl_max ws (Nat.max v w) x (List.mem_cons_of_mem _ h2)

theorem maxLocOf_mem_or (vs : List ℕ) : vs = [] ∨ maxLocOf vs ∈ vs := by
  cases vs with
  | nil => exact Or.inl rfl
  | cons v ws => exact Or.inr (foldl_max_mem ws v)

theorem le_maxLocOf {vs : List ℕ} {x : ℕ} (hx : x ∈ vs) : x ≤ maxLocOf vs := by
  cases vs with
  | nil => exact absurd hx (List.not_mem_nil x)
  | cons v ws => exact le_foldl_max ws v x hx

theorem buildBox_degenerate {coords : List ℕ} (h : coords.length < 4) (sx sy : PyNum) :
    buildBox coords sx sy = some [(0, 0), (0, 0), (0, 0), (0, 0)] := by
  rcases coords with _ | ⟨a, _ | ⟨b, _ | ⟨c, _ | ⟨d, t⟩⟩⟩⟩
  · rfl
  · rfl
  · rfl
  · rfl
  · simp only [List.length_cons] at h
    omega

theorem buildBox_four {t : List ℕ} (ht : t.length ≤ 3) (c0 c1 c2 c3 : ℕ) (sx sy : PyNum) :
    buildBox (c0 :: c1 :: c2 :: c3 :: t) sx sy = (do
      let x1 ← scaleCoord c0 sx
      let y1 ← scaleCoord c1 sy
      let x2 ← scaleCoord c2 sx
      let y2 ← scaleCoord c3 sy
      some [(x1, y1), (x2, y1), (x2, y2), (x1, y2)]) := by
  rcases t with _ | ⟨a, _ | ⟨b, _ | ⟨c, _ | ⟨d, t⟩⟩⟩⟩
  · rfl
  · rfl
  · rfl
  · rfl
  · simp only [List.length_cons] at ht
    omega

theorem emitRecords_append (a b : List (List Char × List Char)) (sx sy : PyNum) :
    emitRecords (a ++ b) sx sy =
      (emitRecords a sx sy).bind (fun ra => (emitRecords b sx sy).map (fun rb => ra ++ rb)) := by
  induction a with
  | nil =>
      show emitRecords b sx sy = (some []).bind _
      cases emitRecords b sx sy <;> simp
  | cons p rest ih =>
      obtain ⟨chunk, run⟩ := p
      show emitRecords ((chunk, run) :: (rest ++ b)) sx sy = _
      simp only [emitRecords]
      split
      · exact ih
      · rw [ih]
        cases hb : buildBox ((findLocDigitRuns run).map digitsToNat) sx sy with
        | none => rfl
        | some box =>
            cases emitRecords rest sx sy <;> cases emitRecords b sx sy <;> simp

theorem emitRecords_texts : ∀ {prs : List (List Char × List Char)} {sx sy : PyNum}
    {l : List TextRecord}, emitRecords prs sx sy = some l →
    l.map TextRecord.text =
      prs.filterMap (fun p => if (pyStrip p.1).isEmpty then none else some (pyStrip p.1).asString)
  | [], _, _, l, h => by
      obtain rfl : ([] : List TextRecord) = l := Option.some.inj h
      rfl
  | (chunk, run) :: rest, sx, sy, l, h => by
      simp only [List.filterMap_cons]
      cases hemp : (pyStrip chunk).isEmpty with
      | true =>
          simp only [emitRecords, hemp, if_true] at h
          simp only [hemp, if_true]
          exact emitRecords_texts h
      | false =>
          simp only [emitRecords, hemp, Bool.false_eq_true, if_false] at h
          simp only [Option.bind_eq_bind] at h
          rw [Option.bind_eq_some] at h
          obtain ⟨box, hb, h⟩ := h
          rw [Option.bind_eq_some] at h
          obtain ⟨l2, hr, h⟩ := h
          simp only [Option.some.injEq] at h
          subst h
          simp only [hemp, Bool.false_eq_true, if_false, List.map_cons]
          rw [emitRecords_texts hr]

theorem scanPairs_fst : ∀ {l : List Char} {p : List Char × List Char}, p ∈ scanPairs l →
    p.1 ≠ [] ∧ ∀ c ∈ p.1, plainChar c = true
  | [], p, hp => by
      rw [scanPairs_nil] at hp
      exact absurd hp (List.not_mem_nil p)
  | ch :: cs, p, hp => by
      rw [scanPairs_cons] at hp
      by_cases hc : plainChar ch
      · rw [if_pos hc] at hp
        split at hp
        case _ tks rest2 hrun =>
          have hlen := parseTokenRun_length hrun
          have hdw := (List.dropWhile_sublist (p := plainChar) (l := cs)).length_le
          rcases List.mem_cons.mp hp with h1 | h1
          · subst h1
            refine ⟨by simp, ?_⟩
            intro c hcmem
            rcases List.mem_cons.mp hcmem with h2 | h2
            · subst h2
              exact hc
            · exact List.mem_takeWhile_imp h2
          · exact scanPairs_fst h1
        case _ =>
          have hdw := (List.dropWhile_sublist (p := plainChar) (l := cs)).length_le
          exact scanPairs_fst hp
      · rw [if_neg hc] at hp
        exact scanPairs_fst hp
termination_by l => l.length
decreasing_by
  · simp only [List.length_cons]
    omega
  · simp only [List.length_cons]
    omega
  · simp

theorem hasLocToken_of_suffix {s l : List Char} (hs : s <:+ l) (h : hasLocToken s = true) :
    hasLocToken l = true := by
  unfold hasLocToken at h ⊢
  rw [List.any_eq_true] at h ⊢
  obtain ⟨t, ht, htok⟩ := h
  exact ⟨t, (List.mem_tails _ _).mpr (((List.mem_tails _ _).mp ht).trans hs), htok⟩

theorem scanPairs_eq_nil_of_no_token : ∀ {l : List Char}, hasLocToken l = false →
    scanPairs l = []
  | [], _ => scanPairs_nil
  | ch :: cs, h => by
      rw [scanPairs_cons]
      have hsufcs : cs <:+ ch :: cs := List.suffix_cons ch cs
      have hsub : cs.dropWhile plainChar <:+ ch :: cs :=
        (List.dropWhile_suffix plainChar).trans hsufcs
      have hnot : ∀ s, s <:+ ch :: cs → hasLocToken s = false := by
        intro s hsuf
        cases htv : hasLocToken s with
        | false => rfl
        | true => rw [hasLocToken_of_suffix hsuf htv] at h; exact absurd h (by simp)
      by_cases hc : plainChar ch
      · rw [if_pos hc]
        split
        case _ tks rest2 hrun =>
          exfalso
          rw [parseTokenRun_eq] at hrun
          split at hrun
          · exact absurd hrun (by simp)
          case _ tk rest htok =>
            have htoks : hasLocToken (cs.dropWhile plainChar) = true := by
              unfold hasLocToken
              rw [List.any_eq_true]
              exact ⟨cs.dropWhile plainChar, (List.mem_tails _ _).mpr (List.suffix_refl _),
                by rw [htok]; rfl⟩
            rw [hnot _ hsub] at htoks
            exact absurd htoks (by simp)
        case _ =>
          exact scanPairs_eq_nil_of_no_token (hnot _ hsub)
      · rw [if_neg hc]
        exact scanPairs_eq_nil_of_no_token (hnot _ hsufcs)
termination_by l => l.length
decreasing_by
  · simp only [List.length_cons]
    have hdw := (List.dropWhile_sublist (p := plainChar) (l := cs)).length_le
    omega
  · simp

theorem ratFloor_eq_intFloor (x : ℚ) : Rat.floor x = ⌊x⌋ := by
  rw [Rat.floor_def' x, Rat.floor_def]

theorem rne_nonneg {x : ℚ} (h : 0 ≤ x) : 0 ≤ rne x := by
  have hf : (0 : ℤ) ≤ ⌊x⌋ := Int.floor_nonneg.mpr h
  rw [← ratFloor_eq_intFloor] at hf
  unfold rne
  split
  · exact hf
  · split
    · omega
    · split <;> omega

theorem rne_le (x : ℚ) : (rne x : ℚ) ≤ x + 1/2 := by
  have h1 : (⌊x⌋ : ℚ) ≤ x := Int.floor_le x
  have h2 : x < ⌊x⌋ + 1 := Int.lt_floor_add_one x
  rw [← ratFloor_eq_intFloor] at h1 h2
  unfold rne
  split
  case _ hlt => linarith
  · split
    case _ hgt =>
        push_cast
        linarith
    case _ hgt =>
        have heq : x - (Rat.floor x : ℚ) = 1/2 := by
          rcases lt_trichotomy (x - (Rat.floor x : ℚ)) (1/2) with h | h | h
          · exact absurd h (by assumption)
          · exact h
          · exact absurd h (by assumption)
        split <;> push_cast <;> linarith

theorem le_rne (x : ℚ) : x - 1/2 ≤ (rne x : ℚ) := by
  have h1 : (⌊x⌋ : ℚ) ≤ x := Int.floor_le x
  have h2 : x < ⌊x⌋ + 1 := Int.lt_floor_add_one x
  rw [← ratFloor_eq_intFloor] at h1 h2
  unfold rne
  split
  case _ hlt => linarith
  · split
    case _ hgt =>
        push_cast
        linarith
    case _ hgt =>
        split <;> push_cast <;> linarith

theorem rne_of_lt_half {x : ℚ} (h0 : 0 ≤ x) (h : x < 1/2) : rne x = 0 := by
  have hf : ⌊x⌋ = 0 := by
    rw [Int.floor_eq_zero_iff]
    constructor
    · exact h0
    · linarith
  rw [← ratFloor_eq_intFloor] at hf
  unfold rne
  rw [hf]
  rw [if_pos (by push_cast; linarith)]

theorem fpRound_zero : fpRound 0 = some 0 := rfl

theorem fpRound_isSome {q : ℚ} (h : |q| < fpT) : (fpRound q).isSome := by
  unfold fpRound
  split
  · rfl
  · rw [if_neg (not_le.mpr h)]
    split <;> rfl

theorem fpGrid_pos (a : ℚ) : 0 < fpGrid a := by
  unfold fpGrid
  exact zpow_pos (by norm_num) _

theorem fpRound_val_abs_le {a : ℚ} (ha : 0 < a) :
    |(rne (a / fpGrid a) : ℚ) * fpGrid a| ≤ 2 * a + 1 := by
  have hgpos := fpGrid_pos a
  have hnn : 0 ≤ rne (a / fpGrid a) := rne_nonneg (by positivity)
  have hrle : (rne (a / fpGrid a) : ℚ) ≤ a / fpGrid a + 1/2 := rne_le _
  rw [abs_of_nonneg (by positivity)]
  by_cases hc : a / fpGrid a < 1/2
  · rw [rne_of_lt_half (by positivity) hc]
    push_cast
    nlinarith
  · push_neg at hc
    rw [le_div_iff₀ hgpos] at hc
    have h1 : (rne (a / fpGrid a) : ℚ) * fpGrid a ≤ (a / fpGrid a + 1/2) * fpGrid a :=
      mul_le_mul_of_nonneg_right hrle (le_of_lt hgpos)
    have h2 : (a / fpGrid a + 1/2) * fpGrid a = a + fpGrid a / 2 := by
      field_simp
      ring
    nlinarith

theorem fpRound_abs_le {q r : ℚ} (h : fpRound q = some r) : |r| ≤ 2 * |q| + 1 := by
  unfold fpRound at h
  split at h
  case _ h0 =>
      obtain rfl : (0 : ℚ) = r := Option.some.inj h
      simp [h0]
  · split at h
    · exact absurd h (by simp)
    case _ hth =>
        have haq : 0 < |q| := abs_pos.mpr (by assumption)
        split at h
        · obtain rfl := Option.some.inj h
          rw [abs_neg]
          exact fpRound_val_abs_le haq
        · obtain rfl := Option.some.inj h
          exact fpRound_val_abs_le haq

theorem pow500_lt_fpT : ((2:ℚ) ^ (500:ℕ)) < fpT := by
  norm_num [fpT]

theorem prodBound_lt_fpT : ((2:ℚ) ^ (501:ℕ) + 1) * ((2:ℚ) ^ (501:ℕ) + 1) < fpT := by
  norm_num [fpT]

theorem scaleCoord_some_of_bounds {c : ℕ} {s : PyNum} (hc : (c : ℚ) ≤ 2 ^ (500:ℕ))
    (hs : ∀ x, s = PyNum.pfloat x → |x| ≤ 2 ^ (501:ℕ) + 1) :
    ∃ z, scaleCoord c s = some z := by
  cases s with
  | pint n => exact ⟨(c : ℤ) * n, rfl⟩
  | pfloat x =>
      have hx := hs x rfl
      have h0c : (0 : ℚ) ≤ (c : ℚ) := Nat.cast_nonneg c
      have hcq : |(c : ℚ)| < fpT := by
        rw [abs_of_nonneg h0c]
        exact lt_of_le_of_lt hc pow500_lt_fpT
      obtain ⟨cf, hcf⟩ := Option.isSome_iff_exists.mp (fpRound_isSome hcq)
      have hcfb : |cf| ≤ 2 * |(c : ℚ)| + 1 := fpRound_abs_le hcf
      have hp : |cf * x| < fpT := by
        rw [abs_mul]
        have h1 : |cf| ≤ 2 ^ (501:ℕ) + 1 := by
          calc |cf| ≤ 2 * |(c : ℚ)| + 1 := hcfb
            _ = 2 * (c : ℚ) + 1 := by rw [abs_of_nonneg h0c]
            _ ≤ 2 * 2 ^ (500:ℕ) + 1 := by linarith
            _ = 2 ^ (501:ℕ) + 1 := by norm_num [pow_succ]
        calc |cf| * |x| ≤ (2 ^ (501:ℕ) + 1) * (2 ^ (501:ℕ) + 1) := by
              apply mul_le_mul h1 hx (abs_nonneg x) (by positivity)
          _ < fpT := prodBound_lt_fpT
      obtain ⟨p, hpp⟩ := Option.isSome_iff_exists.mp (fpRound_isSome hp)
      refine ⟨ratTrunc p, ?_⟩
      simp only [scaleCoord, hcf, Option.bind_eq_bind, Option.some_bind, hpp]

theorem pyScale_ok {dim : ℤ} (m : ℕ) (hd : |(dim : ℚ)| ≤ 2 ^ (500:ℕ)) :
    ∃ s, pyScale dim m = some s ∧ ∀ x, s = PyNum.pfloat x → |x| ≤ 2 ^ (501:ℕ) + 1 := by
  unfold pyScale
  split
  case _ hm =>
      have hm1 : (1 : ℚ) ≤ (m : ℚ) := by exact_mod_cast hm
      have h1 : |(dim : ℚ) / (m : ℚ)| ≤ 2 ^ (500:ℕ) := by
        rw [abs_div, abs_of_nonneg (by positivity : (0:ℚ) ≤ (m:ℚ))]
        calc |(dim : ℚ)| / (m : ℚ) ≤ |(dim : ℚ)| / 1 := by
              apply div_le_div_of_nonneg_left (abs_nonneg _) (by norm_num) hm1
          _ = |(dim : ℚ)| := by norm_num
          _ ≤ 2 ^ (500:ℕ) := hd
      obtain ⟨x, hx⟩ := Option.isSome_iff_exists.mp
        (fpRound_isSome (lt_of_le_of_lt h1 pow500_lt_fpT))
      refine ⟨PyNum.pfloat x, by rw [hx]; rfl, ?_⟩
      intro y hy
      obtain rfl : x = y := by injection hy
      have := fpRound_abs_le hx
      calc |x| ≤ 2 * |(dim : ℚ) / (m : ℚ)| + 1 := this
        _ ≤ 2 * 2 ^ (500:ℕ) + 1 := by linarith
        _ = 2 ^ (501:ℕ) + 1 := by norm_num [pow_succ]
  · exact ⟨PyNum.pint 1, rfl, fun x h => by cases h⟩

theorem buildBox_some_of_bounds {coords : List ℕ} {sx sy : PyNum}
    (hv : ∀ c ∈ coords, (c : ℚ) ≤ 2 ^ (500:ℕ))
    (hsx : ∀ x, sx = PyNum.pfloat x → |x| ≤ 2 ^ (501:ℕ) + 1)
    (hsy : ∀ x, sy = PyNum.pfloat x → |x| ≤ 2 ^ (501:ℕ) + 1) :
    ∃ box, buildBox coords sx sy = some box := by
  rcases coords with _ | ⟨c0, _ | ⟨c1, _ | ⟨c2, _ | ⟨c3, t⟩⟩⟩⟩
  · exact ⟨_, rfl⟩
  · exact ⟨_, rfl⟩
  · exact ⟨_, rfl⟩
  · exact ⟨_, rfl⟩
  · obtain ⟨x1, hx1⟩ := scaleCoord_some_of_bounds (hv c0 (by simp)) hsx
    obtain ⟨y1, hy1⟩ := scaleCoord_some_of_bounds (hv c1 (by simp)) hsy
    obtain ⟨x2, hx2⟩ := scaleCoord_some_of_bounds (hv c2 (by simp)) hsx
    obtain ⟨y2, hy2⟩ := scaleCoord_some_of_bounds (hv c3 (by simp)) hsy
    rcases t with _ | ⟨c4, _ | ⟨c5, _ | ⟨c6, _ | ⟨c7, t2⟩⟩⟩⟩
    · refine ⟨[(x1, y1), (x2, y1), (x2, y2), (x1, y2)], ?_⟩
      simp only [buildBox, hx1, hy1, hx2, hy2, Option.bind_eq_bind, Option.some_bind]
    · refine ⟨[(x1, y1), (x2, y1), (x2, y2), (x1, y2)], ?_⟩
      simp only [buildBox, hx1, hy1, hx2, hy2, Option.bind_eq_bind, Option.some_bind]
    · refine ⟨[(x1, y1), (x2, y1), (x2, y2), (x1, y2)], ?_⟩
      simp only [buildBox, hx1, hy1, hx2, hy2, Option.bind_eq_bind, Option.some_bind]
    · refine ⟨[(x1, y1), (x2, y1), (x2, y2), (x1, y2)], ?_⟩
      simp only [buildBox, hx1, hy1, hx2, hy2, Option.bind_eq_bind, Option.some_bind]
    · obtain ⟨x3, hx3⟩ := scaleCoord_some_of_bounds (hv c4 (by simp)) hsx
      obtain ⟨y3, hy3⟩ := scaleCoord_some_of_bounds (hv c5 (by simp)) hsy
      obtain ⟨x4, hx4⟩ := scaleCoord_some_of_bounds (hv c6 (by simp)) hsx
      obtain ⟨y4, hy4⟩ := scaleCoord_some_of_bounds (hv c7 (by simp)) hsy
      refine ⟨[(x1, y1), (x2, y2), (x3, y3), (x4, y4)], ?_⟩
      simp only [buildBox, hx1, hy1, hx2, hy2, hx3, hy3, hx4, hy4,
        Option.bind_eq_bind, Option.some_bind]

theorem emitRecords_some_of_bounds : ∀ {prs : List (List Char × List Char)} {sx sy : PyNum},
    (∀ v ∈ allLocValues prs, (v : ℚ) ≤ 2 ^ (500:ℕ)) →
    (∀ x, sx = PyNum.pfloat x → |x| ≤ 2 ^ (501:ℕ) + 1) →
    (∀ x, sy = PyNum.pfloat x → |x| ≤ 2 ^ (501:ℕ) + 1) →
    ∃ recs, emitRecords prs sx sy = some recs
  | [], _, _, _, _, _ => ⟨[], rfl⟩
  | (chunk, run) :: rest, sx, sy, hv, hsx, hsy => by
      have hvrest : ∀ v ∈ allLocValues rest, (v : ℚ) ≤ 2 ^ (500:ℕ) := by
        intro v hvm
        apply hv
        simp only [allLocValues, List.flatMap_cons]
        exact List.mem_append_right _ hvm
      have hvrun : ∀ c ∈ (findLocDigitRuns run).map digitsToNat, (c : ℚ) ≤ 2 ^ (500:ℕ) := by
        intro c hcm
        apply hv
        simp only [allLocValues, List.flatMap_cons]
        exact List.mem_append_left _ hcm
      obtain ⟨recs, hrecs⟩ := emitRecords_some_of_bounds hvrest hsx hsy
      obtain ⟨box, hbox⟩ := buildBox_some_of_bounds hvrun hsx hsy
      cases hemp : (pyStrip chunk).isEmpty with
      | true => exact ⟨recs, by simp only [emitRecords, hemp, if_true, hrecs]⟩
      | false =>
          refine ⟨⟨(pyStrip chunk).asString, box⟩ :: recs, ?_⟩
          simp only [emitRecords, hemp, Bool.false_eq_true, if_false, hbox, hrecs,
            Option.bind_eq_bind, Option.some_bind]

theorem parse_some_of_bounds {content : String} {w h : ℤ}
    (hv : ∀ v ∈ allLocValues (scanPairs content.data), (v : ℚ) ≤ 2 ^ (500:ℕ))
    (hw : |(w : ℚ)| ≤ 2 ^ (500:ℕ)) (hh : |(h : ℚ)| ≤ 2 ^ (500:ℕ)) :
    ∃ recs, OcrSkill.parse_loc_tags content (w, h) = some recs := by
  obtain ⟨sx, hsx, hsxb⟩ := pyScale_ok (maxLocOf (allLocValues (scanPairs content.data))) hw
  obtain ⟨sy, hsy, hsyb⟩ := pyScale_ok (maxLocOf (allLocValues (scanPairs content.data))) hh
  obtain ⟨recs, hrecs⟩ := emitRecords_some_of_bounds hv hsxb hsyb
  refine ⟨recs, ?_⟩
  unfold OcrSkill.parse_loc_tags
  simp only [hsx, hsy, hrecs, Option.bind_eq_bind, Option.some_bind]

theorem ratTrunc_zero : ratTrunc 0 = 0 := rfl

theorem scaleCoord_pfloat_zero {c : ℕ} (hc : (c : ℚ) ≤ 2 ^ (500:ℕ)) :
    scaleCoord c (PyNum.pfloat 0) = some 0 := by
  have h0c : (0 : ℚ) ≤ (c : ℚ) := Nat.cast_nonneg c
  have hcq : |(c : ℚ)| < fpT := by
    rw [abs_of_nonneg h0c]
    exact lt_of_le_of_lt hc pow500_lt_fpT
  obtain ⟨cf, hcf⟩ := Option.isSome_iff_exists.mp (fpRound_isSome hcq)
  simp only [scaleCoord, hcf, Option.bind_eq_bind, Option.some_bind, mul_zero, fpRound_zero,
    ratTrunc_zero]

theorem scaleCoord_pint_one (c : ℕ) : scaleCoord c (PyNum.pint 1) = some (c : ℤ) := by
  simp [scaleCoord]

theorem buildBox_x_zero : ∀ {coords : List ℕ} {sx sy : PyNum} {box : List (ℤ × ℤ)},
    (∀ c ∈ coords, scaleCoord c sx = some 0) → buildBox coords sx sy = some box →
    ∀ p ∈ box, p.1 = 0 := by
  intro coords sx sy box hx h
  rcases coords with _ | ⟨c0, _ | ⟨c1, _ | ⟨c2, _ | ⟨c3, t⟩⟩⟩⟩
  · obtain rfl := Option.some.inj h
    intro p hp
    simp only [List.mem_cons, List.not_mem_nil, or_false] at hp
    rcases hp with rfl | rfl | rfl | rfl <;> rfl
  · obtain rfl := Option.some.inj h
    intro p hp
    simp only [List.mem_cons, List.not_mem_nil, or_false] at hp
    rcases hp with rfl | rfl | rfl | rfl <;> rfl
  · obtain rfl := Option.some.inj h
    intro p hp
    simp only [List.mem_cons, List.not_mem_nil, or_false] at hp
    rcases hp with rfl | rfl | rfl | rfl <;> rfl
  · obtain rfl := Option.some.inj h
    intro p hp
    simp only [List.mem_cons, List.not_mem_nil, or_false] at hp
    rcases hp with rfl | rfl | rfl | rfl <;> rfl
  · by_cases ht : t.length ≤ 3
    · rw [buildBox_four ht] at h
      simp only [hx c0 (by simp), hx c2 (by simp), Option.bind_eq_bind, Option.some_bind] at h
      rw [Option.bind_eq_some] at h
      obtain ⟨y1, hy1, h⟩ := h
      rw [Option.bind_eq_some] at h
      obtain ⟨y2, hy2, h⟩ := h
      obtain rfl := Option.some.inj h
      intro p hp
      simp only [List.mem_cons, List.not_mem_nil, or_false] at hp
      rcases hp with rfl | rfl | rfl | rfl <;> rfl
    · rcases t with _ | ⟨c4, _ | ⟨c5, _ | ⟨c6, _ | ⟨c7, t2⟩⟩⟩⟩
      · simp at ht
      · simp at ht
      · simp at ht
      · simp at ht
      · simp only [buildBox, hx c0 (by simp), hx c2 (by simp), hx c4 (by simp),
          hx c6 (by simp), Option.bind_eq_bind, Option.some_bind] at h
        rw [Option.bind_eq_some] at h
        obtain ⟨y1, hy1, h⟩ := h
        rw [Option.bind_eq_some] at h
        obtain ⟨y2, hy2, h⟩ := h
        rw [Option.bind_eq_some] at h
        obtain ⟨y3, hy3, h⟩ := h
        rw [Option.bind_eq_some] at h
        obtain ⟨y4, hy4, h⟩ := h
        obtain rfl := Option.some.inj h
        intro p hp
        simp only [List.mem_cons, List.not_mem_nil, or_false] at hp
        rcases hp with rfl | rfl | rfl | rfl <;> rfl

theorem emitRecords_x_zero : ∀ {prs : List (List Char × List Char)} {sx sy : PyNum}
    {recs : List TextRecord},
    (∀ c ∈ allLocValues prs, scaleCoord c sx = some 0) →
    emitRecords prs sx sy = some recs →
    ∀ r ∈ recs, ∀ p ∈ r.box, p.1 = 0
  | [], _, _, recs, _, h => by
      obtain rfl : ([] : List TextRecord) = recs := Option.some.inj h
      intro r hr
      exact absurd hr (List.not_mem_nil r)
  | (chunk, run) :: rest, sx, sy, recs, hx, h => by
      have hxrest : ∀ c ∈ allLocValues rest, scaleCoord c sx = some 0 := by
        intro c hcm
        apply hx
        simp only [allLocValues, List.flatMap_cons]
        exact List.mem_append_right _ hcm
      have hxrun : ∀ c ∈ (findLocDigitRuns run).map digitsToNat, scaleCoord c sx = some 0 := by
        intro c hcm
        apply hx
        simp only [allLocValues, List.flatMap_cons]
        exact List.mem_append_left _ hcm
      simp only [emitRecords] at h
      split at h
      · exact emitRecords_x_zero hxrest h
      · simp only [Option.bind_eq_bind] at h
        rw [Option.bind_eq_some] at h
        obtain ⟨box, hbox, h⟩ := h
        rw [Option.bind_eq_some] at h
        obtain ⟨l2, hl2, h⟩ := h
        obtain rfl := Option.some.inj h
        intro r hr
        rcases List.mem_cons.mp hr with rfl | hr2
        · exact buildBox_x_zero hxrun hbox
        · exact emitRecords_x_zero hxrest hl2 r hr2

set_option maxRecDepth 100000

unseal Rat.add Rat.sub Rat.mul Rat.inv

/-- Claim C4: on the input
`"Hello<|LOC_100|><|LOC_100|><|LOC_200|><|LOC_200|>World<|LOC_972|><|LOC_0|><|LOC_972|><|LOC_100|>"`
with image dimensions (972, 972) the parser returns exactly two records in
this order: `{text: "Hello", box: [[100,100],[200,100],[200,200],[100,200]]}`
and `{text: "World", box: [[972,0],[972,0],[972,100],[972,100]]}`. -/
theorem c4_concrete_scenario :
    OcrSkill.parse_loc_tags c4content (972, 972) =
      some [⟨"Hello", [(100, 100), (200, 100), (200, 200), (100, 200)]⟩,
            ⟨"World", [(972, 0), (972, 0), (972, 100), (972, 100)]⟩] := by
  decide

/-- Claim C10: the two definitions of `parse_loc_tags` — one in
`ocr_skill.py` and one in `ocr_test.py` — are extensionally equal: for every
input string and every pair of image dimensions they return identical record
lists. -/
theorem c10_skill_test_equivalent :
    ∀ (content : String) (image_size : ℤ × ℤ),
      OcrTest.parse_loc_tags content image_size = OcrSkill.parse_loc_tags content image_size :=
  fun _ _ => rfl

/-- Claim C7: a captured pair whose marker group has fewer than 4 values and
whose text is nonempty after stripping still yields a record, with the
degenerate polygon `[(0,0),(0,0),(0,0),(0,0)]`; no error is raised and the
remaining pairs are processed exactly as they would be on their own. -/
theorem c7_degenerate_group :
    ∀ (chunk run : List Char) (prs : List (List Char × List Char)) (sx sy : PyNum),
      ((findLocDigitRuns run).map digitsToNat).length < 4 →
      (pyStrip chunk).isEmpty = false →
      emitRecords ((chunk, run) :: prs) sx sy =
        (emitRecords prs sx sy).map
          (fun recs => ⟨(pyStrip chunk).asString, [(0, 0), (0, 0), (0, 0), (0, 0)]⟩ :: recs) := by
  intro chunk run prs sx sy hlen hne
  simp only [emitRecords, hne, Bool.false_eq_true, if_false, buildBox_degenerate hlen,
    Option.bind_eq_bind, Option.some_bind]
  cases emitRecords prs sx sy <;> rfl

/-- Witness for C7 at a concrete input: one pair with text `"a"` and a
single marker value 3 produces exactly one degenerate record. -/
theorem c7_degenerate_group_witness :
    emitRecords [(['a'], ("<|LOC_3|>").data)] (PyNum.pint 1) (PyNum.pint 1) =
      some [⟨"a", [(0, 0), (0, 0), (0, 0), (0, 0)]⟩] := by
  rw [c7_degenerate_group (['a']) (("<|LOC_3|>").data) [] (PyNum.pint 1) (PyNum.pint 1)
    (by decide) (by decide)]
  decide

/-- Claim C6: a marker group with 4 to 7 values builds its polygon from the
first 4 scaled values (x1, y1, x2, y2), expanded into exactly the corners
[(x1,y1), (x2,y1), (x2,y2), (x1,y2)] in that order (so the diagonal corners
are the scaled (x1,y1) and (x2,y2)); any 5th-7th value is ignored. -/
theorem c6_bounding_box_expansion :
    ∀ (a0 a1 a2 a3 : ℕ) (extra : List ℕ) (sx sy : PyNum), extra.length ≤ 3 →
      buildBox (a0 :: a1 :: a2 :: a3 :: extra) sx sy = (do
        let x1 ← scaleCoord a0 sx
        let y1 ← scaleCoord a1 sy
        let x2 ← scaleCoord a2 sx
        let y2 ← scaleCoord a3 sy
        some [(x1, y1), (x2, y1), (x2, y2), (x1, y2)]) :=
  fun a0 a1 a2 a3 extra sx sy hl => buildBox_four hl a0 a1 a2 a3 sx sy

/-- Witness for C6 at a concrete input: values (1, 2, 3, 4) with two ignored
extras and int scales give the corner expansion [(1,2),(3,2),(3,4),(1,4)]. -/
theorem c6_bounding_box_expansion_witness :
    buildBox [1, 2, 3, 4, 9, 9] (PyNum.pint 1) (PyNum.pint 1) =
      some [(1, 2), (3, 2), (3, 4), (1, 4)] := by
  rw [c6_bounding_box_expansion 1 2 3 4 [9, 9] (PyNum.pint 1) (PyNum.pint 1) (by decide)]
  decide

/-- Claim C5 counterexample: with image size (1, 1) and eight markers of
value 49 (so max_loc = 49), the code computes every pixel through binary64
floats as `int(49 * fl(1/49)) = 0`, while the claimed exact floor rule gives
`floor(49 * 1 / 49) = 1`. -/
theorem c5_counterexample :
    OcrSkill.parse_loc_tags c5content (1, 1) =
      some [⟨"x", [(0, 0), (0, 0), (0, 0), (0, 0)]⟩] ∧
    specPixel 49 1 49 = 1 ∧ (1 : ℤ) ≠ 0 := by
  decide

/-- Claim C5 as amended: a marker group with at least 8 values takes the
first 8 as four (x, y) pairs in document order, each coordinate scaled by
the binary64 pipeline of `scaleCoord` (int-to-float conversion, float
multiplication, truncation) rather than the exact floor rule; all values
beyond the 8th are ignored. -/
theorem c5_eight_value_groups :
    ∀ (a0 a1 a2 a3 a4 a5 a6 a7 : ℕ) (extra : List ℕ) (sx sy : PyNum),
      buildBox (a0 :: a1 :: a2 :: a3 :: a4 :: a5 :: a6 :: a7 :: extra) sx sy = (do
        let x1 ← scaleCoord a0 sx
        let y1 ← scaleCoord a1 sy
        let x2 ← scaleCoord a2 sx
        let y2 ← scaleCoord a3 sy
        let x3 ← scaleCoord a4 sx
        let y3 ← scaleCoord a5 sy
        let x4 ← scaleCoord a6 sx
        let y4 ← scaleCoord a7 sy
        some [(x1, y1), (x2, y2), (x3, y3), (x4, y4)]) :=
  fun _ _ _ _ _ _ _ _ _ _ _ => rfl

/-- Claim C3 counterexample: on `"a<b<|LOC_1|>"` the plain text between the
start of the stream and the marker group is `"a<b"`, but the captured
fragment is only `"b"` — the regex class `[^\|<]+` cannot cross the stray
`<`. -/
theorem c3_counterexample :
    (scanPairs c3content.data).map Prod.fst = [['b']] ∧
    ('a' :: '<' :: 'b' :: []) ≠ ['b'] := by
  decide

/-- Claim C3 as amended: the fragment paired with a marker group is the
maximal nonempty run of characters other than `|` and `<` immediately
preceding the group's first token (text containing `|` or `<` further left
is not included); in particular every captured fragment is nonempty and
contains neither `|` nor `<`. -/
theorem c3_fragment_plain_run :
    ∀ (content : String) (p : List Char × List Char), p ∈ scanPairs content.data →
      p.1 ≠ [] ∧ ∀ c ∈ p.1, c ≠ '|' ∧ c ≠ '<' := by
  intro content p hp
  obtain ⟨h1, h2⟩ := scanPairs_fst hp
  refine ⟨h1, ?_⟩
  intro c hc
  have h3 := h2 c hc
  simp only [plainChar, Bool.and_eq_true, bne_iff_ne] at h3
  exact h3

/-- Witness for C3 at the counterexample input: the captured pair
`(['b'], "<|LOC_1|>")` is nonempty and free of `|` and `<`. -/
theorem c3_fragment_plain_run_witness :
    (['b'], ("<|LOC_1|>").data) ∈ scanPairs c3content.data ∧
    (['b'] ≠ [] ∧ ∀ c ∈ ['b'], c ≠ '|' ∧ c ≠ '<') :=
  ⟨by decide, c3_fragment_plain_run c3content (['b'], ("<|LOC_1|>").data) (by decide)⟩

/-- Claim C2 counterexample: on `"<|LOC_999|>a<|LOC_2|><|LOC_2|><|LOC_2|><|LOC_2|>"`
the response contains a marker group with value 999 (per the spec's
grammar, as scanned by `specTokenValues`), but the code's `max_loc` is 2,
because the leading group is preceded by no `[^\|<]` text and is never
captured. -/
theorem c2_counterexample :
    maxLocOf (allLocValues (scanPairs c2content.data)) = 2 ∧
    specTokenValues c2content.data = [999, 2, 2, 2, 2] ∧ (999 : ℕ) ≠ 2 := by
  decide

/-- Claim C2 as amended: `max_loc` is the maximum of the marker values of the
captured pairs only (a group counts only when preceded by a nonempty run of
characters other than `|` and `<`), and the fallback 972 applies exactly
when no captured values exist — even if uncaptured marker tokens are
present. -/
theorem c2_max_loc_captured :
    ∀ (content : String),
      (allLocValues (scanPairs content.data) = [] →
        maxLocOf (allLocValues (scanPairs content.data)) = 972) ∧
      (allLocValues (scanPairs content.data) ≠ [] →
        maxLocOf (allLocValues (scanPairs content.data)) ∈ allLocValues (scanPairs content.data) ∧
        ∀ v ∈ allLocValues (scanPairs content.data),
          v ≤ maxLocOf (allLocValues (scanPairs content.data))) := by
  intro content
  constructor
  · intro h
    rw [h]
    rfl
  · intro h
    rcases maxLocOf_mem_or (allLocValues (scanPairs content.data)) with h1 | h1
    · exact absurd h1 h
    · exact ⟨h1, fun v hv => le_maxLocOf hv⟩

/-- Witness for C2 at the counterexample input: the captured values are
nonempty, and their fold-maximum 2 is one of them and bounds them all. -/
theorem c2_max_loc_captured_witness :
    allLocValues (scanPairs c2content.data) ≠ [] ∧
    (maxLocOf (allLocValues (scanPairs c2content.data)) ∈ allLocValues (scanPairs c2content.data) ∧
      ∀ v ∈ allLocValues (scanPairs c2content.data),
        v ≤ maxLocOf (allLocValues (scanPairs c2content.data))) :=
  ⟨by decide, (c2_max_loc_captured c2content).2 (by decide)⟩

/-- Claim C1 counterexample: with image width 0, height 10 and markers of
value 5 (max_loc = 5 > 0), the x scale is `0 / 5 = 0.0` — not the claimed
no-op 1 — so the emitted x coordinates are 0, not the raw marker value 5;
the call still succeeds. -/
theorem c1_counterexample :
    OcrSkill.parse_loc_tags c1content (0, 10) =
      some [⟨"a", [(0, 10), (0, 10), (0, 10), (0, 10)]⟩] ∧
    (0 : ℤ) ≠ 5 := by
  decide

/-- Claim C1 as amended: when the image width is 0 (and the inputs are small
enough that no float conversion overflows), the call still succeeds, but the
x scale is the float `0.0` whenever `max_loc > 0` (it degrades to the int 1
only when `max_loc = 0`, in which case all captured values are 0) — so every
emitted x coordinate is 0 rather than the raw marker value. -/
theorem c1_zero_width :
    ∀ (content : String) (h : ℤ),
      (∀ v ∈ allLocValues (scanPairs content.data), (v : ℚ) ≤ 2 ^ (500:ℕ)) →
      |(h : ℚ)| ≤ 2 ^ (500:ℕ) →
      ∃ recs, OcrSkill.parse_loc_tags content (0, h) = some recs ∧
        ∀ r ∈ recs, ∀ p ∈ r.box, p.1 = 0 := by
  intro content h hv hh
  obtain ⟨recs, hrecs⟩ := parse_some_of_bounds (w := 0) hv (by norm_num) hh
  refine ⟨recs, hrecs, ?_⟩
  unfold OcrSkill.parse_loc_tags at hrecs
  simp only [Option.bind_eq_bind] at hrecs
  rw [Option.bind_eq_some] at hrecs
  obtain ⟨sx, hsx, hrecs⟩ := hrecs
  rw [Option.bind_eq_some] at hrecs
  obtain ⟨sy, hsy, hrecs⟩ := hrecs
  have hzero : ∀ c ∈ allLocValues (scanPairs content.data), scaleCoord c sx = some 0 := by
    unfold pyScale at hsx
    split at hsx
    case _ hm =>
      simp only [Int.cast_zero, zero_div, fpRound_zero] at hsx
      have hsx2 : PyNum.pfloat 0 = sx := by simpa using hsx
      obtain rfl := hsx2
      intro c hc
      exact scaleCoord_pfloat_zero (hv c hc)
    case _ hm =>
      obtain rfl : PyNum.pint 1 = sx := Option.some.inj hsx
      intro c hc
      have hc0 : c = 0 := by
        have h1 := le_maxLocOf hc
        omega
      subst hc0
      exact scaleCoord_pint_one 0
  exact emitRecords_x_zero hzero hrecs

/-- Witness for C1 at the counterexample input: bounds hold, the call with
width 0 succeeds, and every emitted x coordinate is 0. -/
theorem c1_zero_width_witness :
    (∀ v ∈ allLocValues (scanPairs c1content.data), (v : ℚ) ≤ 2 ^ (500:ℕ)) ∧
    ∃ recs, OcrSkill.parse_loc_tags c1content (0, 10) = some recs ∧
      ∀ r ∈ recs, ∀ p ∈ r.box, p.1 = 0 :=
  ⟨by decide, c1_zero_width c1content 10 (by decide) (by decide)⟩

/-- Claim C9 counterexample: on a response whose first marker value is
10^309 (with image size (972, 972)), CPython raises `OverflowError` when it
converts the coordinate to a float inside `int(coords[0] * x_scale)`; the
call does not return a list. -/
theorem c9_counterexample_overflow :
    OcrSkill.parse_loc_tags c9content (972, 972) = none := by
  decide

/-- Claim C9 as amended: `parse_loc_tags` terminates and returns a list,
raising no exception, on every input whose marker values and image
dimension magnitudes are at most 2^500 (far beyond realistic inputs but
safely below the binary64 overflow threshold 2^1024 - 2^970); every matched
digit run parses as a non-negative integer, so the only exception path is
float overflow on astronomically large values, as in the counterexample. -/
theorem c9_no_exception_in_range :
    ∀ (content : String) (w h : ℤ),
      (∀ v ∈ allLocValues (scanPairs content.data), (v : ℚ) ≤ 2 ^ (500:ℕ)) →
      |(w : ℚ)| ≤ 2 ^ (500:ℕ) → |(h : ℚ)| ≤ 2 ^ (500:ℕ) →
      ∃ recs, OcrSkill.parse_loc_tags content (w, h) = some recs :=
  fun _ _ _ hv hw hh => parse_some_of_bounds hv hw hh

/-- Witness for C9 at a small input: bounds hold and the call returns a
list. -/
theorem c9_no_exception_in_range_witness :
    (∀ v ∈ allLocValues (scanPairs c9small.data), (v : ℚ) ≤ 2 ^ (500:ℕ)) ∧
    (|((972:ℤ) : ℚ)| ≤ 2 ^ (500:ℕ)) ∧
    ∃ recs, OcrSkill.parse_loc_tags c9small (972, 972) = some recs :=
  ⟨by decide, by decide,
    c9_no_exception_in_range c9small 972 972 (by decide) (by decide) (by decide)⟩

/-- Claim C8 counterexample: on the markerless response `"abc"` with image
width 10^400, the scale division `10^400 / 972` overflows binary64 and
CPython raises `OverflowError` — the parser does not return the claimed
empty record sequence. -/
theorem c8_counterexample_overflow :
    OcrSkill.parse_loc_tags c8content (c8bigW, 1) = none := by
  decide

/-- Claim C8 as amended: whenever the call returns a list, a record is
emitted exactly for the captured fragments (maximal `[^\|<]` runs directly
before a marker run) that are nonempty after stripping, in order, with the
stripped fragment as text — trailing text and uncaptured text are
discarded; and a response with no marker tokens yields the empty record
sequence provided the image dimensions are small enough that the scale
division does not overflow (at most 2^500 in magnitude, unlike the
counterexample's 10^400). -/
theorem c8_records_from_captured_pairs :
    ∀ (content : String) (w h : ℤ) (recs : List TextRecord),
      (OcrSkill.parse_loc_tags content (w, h) = some recs →
        recs.map TextRecord.text =
          (scanPairs content.data).filterMap
            (fun p => if (pyStrip p.1).isEmpty then none else some (pyStrip p.1).asString)) ∧
      (hasLocToken content.data = false → |(w : ℚ)| ≤ 2 ^ (500:ℕ) → |(h : ℚ)| ≤ 2 ^ (500:ℕ) →
        OcrSkill.parse_loc_tags content (w, h) = some []) := by
  intro content w h recs
  constructor
  · intro hp
    unfold OcrSkill.parse_loc_tags at hp
    simp only [Option.bind_eq_bind] at hp
    rw [Option.bind_eq_some] at hp
    obtain ⟨sx, hsx, hp⟩ := hp
    rw [Option.bind_eq_some] at hp
    obtain ⟨sy, hsy, hp⟩ := hp
    exact emitRecords_texts hp
  · intro hnotok hw hh
    have hnil : scanPairs content.data = [] := scanPairs_eq_nil_of_no_token hnotok
    obtain ⟨sx, hsx, hsxb⟩ := pyScale_ok (maxLocOf (allLocValues (scanPairs content.data))) hw
    obtain ⟨sy, hsy, hsyb⟩ := pyScale_ok (maxLocOf (allLocValues (scanPairs content.data))) hh
    rw [hnil] at hsx hsy
    unfold OcrSkill.parse_loc_tags
    simp only [hnil, hsx, hsy, Option.bind_eq_bind, Option.some_bind]
    rfl

/-- Witness for C8 at the counterexample response with benign dimensions:
`"abc"` has no marker tokens and parses to the empty record sequence, whose
text list matches the empty filtered fragment list. -/
theorem c8_records_from_captured_pairs_witness :
    hasLocToken c8content.data = false ∧
    OcrSkill.parse_loc_tags c8content (972, 972) = some [] ∧
    ([] : List TextRecord).map TextRecord.text =
      (scanPairs c8content.data).filterMap
        (fun p => if (pyStrip p.1).isEmpty then none else some (pyStrip p.1).asString) := by
  have h2 := (c8_records_from_captured_pairs c8content 972 972 []).2 (by decide) (by decide)
    (by decide)
  exact ⟨by decide, h2, (c8_records_from_captured_pairs c8content 972 972 []).1 h2⟩
